import Mathlib

/-!
Verification of the family-tree layout engine.

This file is a shallow embedding of the algorithmic core of the
FamilyTreeApp repository (src/App.tsx): the tidy-tree layout function
layoutTree, the bounding-box query getTreeBounds, and the tree-builder
update addChild.  JavaScript numbers are modelled as exact rationals;
the Infinity sentinels seeding the bounding box are modelled as the top
and bottom elements of WithTop and WithBot over the rationals.
-/

/-- The LogicalNode input type: interface FamilyMember of src/App.tsx,
an id, a display name and an ordered list of children. -/
structure FamilyMember where
  id : String
  name : String
  children : List FamilyMember
deriving Inhabited

/-- The PositionedNode output type: the object literal returned by
layoutTree, carrying the spread FamilyMember fields plus x, y and the
subtree width, with positioned children. -/
structure PositionedNode where
  id : String
  name : String
  x : ℚ
  y : ℚ
  width : ℚ
  children : List PositionedNode
deriving Inhabited

/-- Models the child-placement forEach loop of layoutTree (lines
112-117 of src/App.tsx): walking left to right from the running
cursor currentX, each child layout gets its x overwritten to
currentX + width / 2, and the cursor advances by the child width plus
half the horizontal spacing.  Only the root x of each child layout is
mutated; the descendants of each child keep the positions computed in
the recursive call. -/
def placeChildren (spacingX : ℚ) : ℚ → List PositionedNode → List PositionedNode
  | _, [] => []
  | currentX, c :: rest =>
    { c with x := currentX + c.width / 2 } ::
      placeChildren spacingX (currentX + c.width + spacingX * (1 / 2)) rest

mutual

/-- The layout engine, function layoutTree of src/App.tsx (lines
90-130).  A leaf gets width spacingX and keeps the caller-supplied x.
An internal node lays out its children recursively at y + spacingY
with placeholder x 0, takes width
max(sum of child widths + spacingX/2 * (count - 1), spacingX), packs
the children from x - width/2 with placeChildren and finally recentres
its own x over the first and last child. -/
def layoutTree (node : FamilyMember) (x y : ℚ)
    (level siblingIndex siblingsCount : Nat) (spacingX spacingY : ℚ) : PositionedNode :=
  match node with
  | .mk i n cs =>
    match cs with
    | [] => { id := i, name := n, x := x, y := y, width := spacingX, children := [] }
    | c :: rest =>
      let childLayouts :=
        layoutChildren (c :: rest) (y + spacingY) (level + 1) 0 (c :: rest).length spacingX spacingY
      let totalChildrenWidth := (childLayouts.map (fun c => c.width)).sum
      let totalSpacing := spacingX * (1 / 2) * ((childLayouts.length : ℚ) - 1)
      let width := max (totalChildrenWidth + totalSpacing) spacingX
      let children := placeChildren spacingX (x - width / 2) childLayouts
      let newX :=
        match children with
        | [] => x
        | c0 :: cs0 =>
          if (c0 :: cs0).length = 1 then c0.x
          else (c0.x + ((c0 :: cs0).getLastD c0).x) / 2
      { id := i, name := n, x := newX, y := y, width := width, children := children }
termination_by structural node

/-- The map over node.children in layoutTree line 104: each child is
laid out at placeholder x 0 and one level further down, receiving its
index and the sibling count as auxiliary arguments. -/
def layoutChildren (cs : List FamilyMember) (y : ℚ)
    (level i n : Nat) (spacingX spacingY : ℚ) : List PositionedNode :=
  match cs with
  | [] => []
  | c :: rest =>
    layoutTree c 0 y level i n spacingX spacingY ::
      layoutChildren rest y level (i + 1) n spacingX spacingY
termination_by structural cs

end

/-- The bounds accumulator of getTreeBounds.  The JavaScript initial
value uses Infinity and -Infinity sentinels, modelled as the top of
WithTop and the bottom of WithBot over the rationals. -/
structure TreeBounds where
  minX : WithTop ℚ
  maxX : WithBot ℚ
  minY : WithTop ℚ
  maxY : WithBot ℚ
deriving DecidableEq

/-- The default bounds argument of getTreeBounds:
minX = Infinity, maxX = -Infinity, minY = Infinity, maxY = -Infinity. -/
def initialBounds : TreeBounds := ⟨⊤, ⊥, ⊤, ⊥⟩

mutual

/-- Function getTreeBounds of src/App.tsx (lines 225-234): folds the
node footprint corners x, x + 100, y, y + 80 into the running min/max
accumulator, then recurses over the children left to right threading
the accumulator.  The truthiness test on node.children is always true
in this model, since children is always an array. -/
def getTreeBounds (node : PositionedNode) (bounds : TreeBounds) : TreeBounds :=
  match node with
  | .mk _ _ x y _ cs =>
    getTreeBoundsList cs
      ⟨min bounds.minX (x : WithTop ℚ), max bounds.maxX ((x + 100 : ℚ) : WithBot ℚ),
       min bounds.minY (y : WithTop ℚ), max bounds.maxY ((y + 80 : ℚ) : WithBot ℚ)⟩
termination_by structural node

/-- The forEach over node.children in getTreeBounds, threading the
mutated accumulator through the children in order. -/
def getTreeBoundsList (cs : List PositionedNode) (bounds : TreeBounds) : TreeBounds :=
  match cs with
  | [] => bounds
  | c :: rest => getTreeBoundsList rest (getTreeBounds c bounds)
termination_by structural cs

end

mutual

/-- The recursive closure addChild of src/App.tsx (lines 266-277),
with the captured parentId and newMember made explicit parameters: a
node whose id matches parentId gets newMember appended to its
children (its original children are not searched further); any other
node is rebuilt with addChild mapped over its children. -/
def addChild (parentId : String) (newMember : FamilyMember) (member : FamilyMember) :
    FamilyMember :=
  match member with
  | .mk i n cs =>
    if i = parentId then ⟨i, n, cs ++ [newMember]⟩
    else ⟨i, n, addChildList parentId newMember cs⟩
termination_by structural member

/-- The member.children.map(addChild) call inside addChild. -/
def addChildList (parentId : String) (newMember : FamilyMember) (cs : List FamilyMember) :
    List FamilyMember :=
  match cs with
  | [] => []
  | c :: rest => addChild parentId newMember c :: addChildList parentId newMember rest
termination_by structural cs

end

mutual

/-- All ids occurring in a logical tree, root first. -/
def memberIds (member : FamilyMember) : List String :=
  match member with
  | .mk i _ cs => i :: memberIdsList cs
termination_by structural member

/-- All ids occurring in a forest of logical trees. -/
def memberIdsList (cs : List FamilyMember) : List String :=
  match cs with
  | [] => []
  | c :: rest => memberIds c ++ memberIdsList rest
termination_by structural cs

end

mutual

/-- All nodes of a positioned tree, root first, depth first. -/
def nodesOf (p : PositionedNode) : List PositionedNode :=
  match p with
  | .mk i n x y w cs => ⟨i, n, x, y, w, cs⟩ :: nodesOfList cs
termination_by structural p

/-- All nodes of a forest of positioned trees. -/
def nodesOfList (l : List PositionedNode) : List PositionedNode :=
  match l with
  | [] => []
  | c :: rest => nodesOf c ++ nodesOfList rest
termination_by structural l

end

mutual

/-- All nodes of a positioned tree paired with their depth, the root
being labelled with the given starting depth. -/
def nodesDepth (p : PositionedNode) (d : Nat) : List (PositionedNode × Nat) :=
  match p with
  | .mk i n x y w cs => (⟨i, n, x, y, w, cs⟩, d) :: nodesDepthList cs (d + 1)
termination_by structural p

/-- All nodes of a forest of positioned trees paired with depths. -/
def nodesDepthList (l : List PositionedNode) (d : Nat) : List (PositionedNode × Nat) :=
  match l with
  | [] => []
  | c :: rest => nodesDepth c d ++ nodesDepthList rest d
termination_by structural l

end

mutual

/-- Strips the computed geometry from a positioned tree, recovering
the logical fields id, name and children. -/
def forgetPosition (p : PositionedNode) : FamilyMember :=
  match p with
  | .mk i n _ _ _ cs => ⟨i, n, forgetPositionList cs⟩
termination_by structural p

/-- Strips the computed geometry from a forest of positioned trees. -/
def forgetPositionList (l : List PositionedNode) : List FamilyMember :=
  match l with
  | [] => []
  | c :: rest => forgetPosition c :: forgetPositionList rest
termination_by structural l

end

/-- The minimum and maximum footprint corners over a list of
positioned nodes, phrased as the spec words it: the minimum of x, the
maximum of x + 100, the minimum of y and the maximum of y + 80 over
all nodes. -/
def boundsOfNodes (l : List PositionedNode) : TreeBounds :=
  ⟨(l.map fun p => p.x).minimum, (l.map fun p => p.x + 100).maximum,
   (l.map fun p => p.y).minimum, (l.map fun p => p.y + 80).maximum⟩

/-- The two-children example tree of the spec: a root with two leaf
children. -/
def demoTwo : FamilyMember :=
  ⟨"r", "Root", [⟨"a", "A", []⟩, ⟨"b", "B", []⟩]⟩

/-- A single-node tree. -/
def demoLeaf : FamilyMember :=
  ⟨"solo", "Solo", []⟩

/-- A depth-three tree: a root with a leaf child and a second child
that itself has one child. -/
def demoDeep : FamilyMember :=
  ⟨"r", "Root", [⟨"a", "A", []⟩, ⟨"b", "B", [⟨"c", "C", []⟩]⟩]⟩

/-- Strong induction principle for logical trees: to prove a property
of every tree it suffices to prove it for a node assuming it for each
child. -/
theorem familyMemberInduction (P : FamilyMember → Prop)
    (step : ∀ i n cs, (∀ c ∈ cs, P c) → P ⟨i, n, cs⟩) :
    ∀ t, P t
  | ⟨i, n, cs⟩ => step i n cs (fun c hc =>
      have : sizeOf c < sizeOf (FamilyMember.mk i n cs) := by
        have h := List.sizeOf_lt_of_mem hc
        simp only [FamilyMember.mk.sizeOf_spec]
        omega
      familyMemberInduction P step c)
termination_by t => sizeOf t

/-- Strong induction principle for positioned trees. -/
theorem positionedNodeInduction (P : PositionedNode → Prop)
    (step : ∀ i n x y w cs, (∀ c ∈ cs, P c) → P ⟨i, n, x, y, w, cs⟩) :
    ∀ t, P t
  | ⟨i, n, x, y, w, cs⟩ => step i n x y w cs (fun c hc =>
      have : sizeOf c < sizeOf (PositionedNode.mk i n x y w cs) := by
        have h := List.sizeOf_lt_of_mem hc
        simp only [PositionedNode.mk.sizeOf_spec]
        omega
      positionedNodeInduction P step c)
termination_by t => sizeOf t

/-- C4: the two-children case of the spec, evaluated exactly. -/
theorem layoutTree_twoChildren :
    layoutTree demoTwo 0 80 0 0 1 180 160 =
      ⟨"r", "Root", 0, 80, 450,
        [⟨"a", "A", -135, 240, 180, []⟩, ⟨"b", "B", 135, 240, 180, []⟩]⟩ := by
  simp [demoTwo, layoutTree, layoutChildren, placeChildren]
  norm_num

/-- C6: the leaf case, both the concrete instance of the spec and the
general childless tree. -/
theorem layoutTree_leaf :
    layoutTree demoLeaf 0 80 0 0 1 180 160 = ⟨"solo", "Solo", 0, 80, 180, []⟩ ∧
    ∀ (i n : String) (x y : ℚ) (level siblingIndex siblingsCount : Nat) (sX sY : ℚ),
      layoutTree ⟨i, n, []⟩ x y level siblingIndex siblingsCount sX sY =
        ⟨i, n, x, y, sX, []⟩ := by
  constructor
  · simp [demoLeaf, layoutTree]
  · intro i n x y level siblingIndex siblingsCount sX sY
    simp [layoutTree]

/-- C8: determinism of the layout engine: in this pure embedding the
result of layoutTree is a function of its arguments alone, so two
calls with identical arguments return structurally identical trees. -/
theorem layoutTree_deterministic :
    ∀ (node : FamilyMember) (x y : ℚ) (level siblingIndex siblingsCount : Nat) (sX sY : ℚ),
      layoutTree node x y level siblingIndex siblingsCount sX sY =
        layoutTree node x y level siblingIndex siblingsCount sX sY :=
  fun _ _ _ _ _ _ _ _ => rfl

theorem addChildList_absent (pid : String) (nm : FamilyMember) :
    ∀ l : List FamilyMember,
      (∀ c ∈ l, pid ∉ memberIds c → addChild pid nm c = c) →
      pid ∉ memberIdsList l → addChildList pid nm l = l := by
  intro l
  induction l with
  | nil => intro _ _; simp [addChildList]
  | cons c rest ih =>
    intro hc h
    simp only [memberIdsList, List.mem_append] at h
    push_neg at h
    simp only [addChildList]
    rw [hc c (List.mem_cons_self c rest) h.1,
      ih (fun d hd => hc d (List.mem_cons_of_mem c hd)) h.2]

/-- C10: when parentId does not occur as the id of any node, addChild
rebuilds the tree unchanged: the result is structurally equal to the
input, with no node added and no error signalled. -/
theorem addChild_noop_when_absent (pid : String) (nm : FamilyMember) :
    ∀ t : FamilyMember, pid ∉ memberIds t → addChild pid nm t = t := by
  intro t
  induction t using familyMemberInduction with
  | step i n cs IH =>
    intro h
    simp only [memberIds, List.mem_cons] at h
    push_neg at h
    simp only [addChild]
    rw [if_neg (fun hip => h.1 hip.symm), addChildList_absent pid nm cs IH h.2]

/-- Witness for C10 at a concrete input: the id z occurs nowhere in
the depth-three demo tree and addChild leaves that tree unchanged. -/
theorem addChild_noop_when_absent_witness :
    "z" ∉ memberIds demoDeep ∧ addChild "z" demoLeaf demoDeep = demoDeep :=
  ⟨by simp [demoDeep, memberIds, memberIdsList],
   addChild_noop_when_absent "z" demoLeaf demoDeep
     (by simp [demoDeep, memberIds, memberIdsList])⟩

theorem forgetPositionList_placeChildren (sX : ℚ) :
    ∀ (l : List PositionedNode) (cur : ℚ),
      forgetPositionList (placeChildren sX cur l) = forgetPositionList l := by
  intro l
  induction l with
  | nil => intro cur; simp [placeChildren]
  | cons c rest ih =>
    intro cur
    obtain ⟨ci, cn, cx, cy, cw, ccs⟩ := c
    simp only [placeChildren, forgetPositionList, forgetPosition]
    rw [ih]

theorem forgetPositionList_layoutChildren (sX sY : ℚ) :
    ∀ (cs : List FamilyMember) (y : ℚ) (level i n : Nat),
      (∀ c ∈ cs, ∀ (x0 y0 : ℚ) (l0 i0 n0 : Nat),
        forgetPosition (layoutTree c x0 y0 l0 i0 n0 sX sY) = c) →
      forgetPositionList (layoutChildren cs y level i n sX sY) = cs := by
  intro cs
  induction cs with
  | nil => intro y level i n _; simp [layoutChildren, forgetPositionList]
  | cons c rest ih =>
    intro y level i n hc
    simp only [layoutChildren, forgetPositionList]
    rw [hc c (List.mem_cons_self c rest) 0 y level i n,
      ih y level (i + 1) n (fun d hd => hc d (List.mem_cons_of_mem c hd))]

/-- C9: the layout engine is a pure derived view of its input: the
returned tree is freshly constructed and stripping the computed
geometry from it gives back exactly the input tree, so the input ids,
names and children are unchanged by a call. -/
theorem layoutTree_pure_view :
    ∀ (node : FamilyMember) (x y : ℚ) (level siblingIndex siblingsCount : Nat) (sX sY : ℚ),
      forgetPosition (layoutTree node x y level siblingIndex siblingsCount sX sY) = node := by
  intro node
  induction node using familyMemberInduction with
  | step i n cs IH =>
    intro x y level siblingIndex siblingsCount sX sY
    match cs, IH with
    | [], _ => simp [layoutTree, forgetPosition, forgetPositionList]
    | c :: rest, IH =>
      simp only [layoutTree, forgetPosition]
      rw [forgetPositionList_placeChildren,
        forgetPositionList_layoutChildren sX sY (c :: rest) _ _ _ _
          (fun d hd x0 y0 l0 i0 n0 => IH d hd x0 y0 l0 i0 n0 sX sY)]

theorem placeChildren_map_width (sX : ℚ) :
    ∀ (l : List PositionedNode) (cur : ℚ),
      (placeChildren sX cur l).map (fun c => c.width) = l.map (fun c => c.width) := by
  intro l
  induction l with
  | nil => intro cur; simp [placeChildren]
  | cons c rest ih =>
    intro cur
    obtain ⟨ci, cn, cx, cy, cw, ccs⟩ := c
    simp only [placeChildren, List.map_cons]
    rw [ih]

theorem placeChildren_length (sX : ℚ) :
    ∀ (l : List PositionedNode) (cur : ℚ),
      (placeChildren sX cur l).length = l.length := by
  intro l
  induction l with
  | nil => intro cur; simp [placeChildren]
  | cons c rest ih =>
    intro cur
    simp only [placeChildren, List.length_cons]
    rw [ih]

theorem layoutChildren_length (sX sY : ℚ) :
    ∀ (cs : List FamilyMember) (y : ℚ) (level i n : Nat),
      (layoutChildren cs y level i n sX sY).length = cs.length := by
  intro cs
  induction cs with
  | nil => intro y level i n; simp [layoutChildren]
  | cons c rest ih =>
    intro y level i n
    simp only [layoutChildren, List.length_cons]
    rw [ih]

theorem mem_nodesOfList_placeChildren (sX : ℚ) :
    ∀ (l : List PositionedNode) (cur : ℚ) (p : PositionedNode),
      p ∈ nodesOfList (placeChildren sX cur l) →
      ∃ q ∈ nodesOfList l, p.id = q.id ∧ p.name = q.name ∧ p.y = q.y ∧
        p.width = q.width ∧ p.children = q.children := by
  intro l
  induction l with
  | nil => intro cur p hp; simp [placeChildren, nodesOfList] at hp
  | cons c rest ih =>
    intro cur p hp
    obtain ⟨ci, cn, cx, cy, cw, ccs⟩ := c
    simp only [placeChildren, nodesOfList, nodesOf, List.mem_append, List.mem_cons] at hp
    rcases hp with (hp | hp) | hp
    · refine ⟨⟨ci, cn, cx, cy, cw, ccs⟩, ?_, ?_⟩
      · simp [nodesOfList, nodesOf]
      · subst hp; simp
    · refine ⟨p, ?_, rfl, rfl, rfl, rfl, rfl⟩
      simp only [nodesOfList, nodesOf, List.mem_append, List.mem_cons]
      exact Or.inl (Or.inr hp)
    · obtain ⟨q, hq, hfields⟩ := ih _ p hp
      refine ⟨q, ?_, hfields⟩
      simp only [nodesOfList, List.mem_append]
      exact Or.inr hq

theorem mem_nodesOfList_layoutChildren (sX sY : ℚ) :
    ∀ (cs : List FamilyMember) (y : ℚ) (level i n : Nat) (p : PositionedNode),
      p ∈ nodesOfList (layoutChildren cs y level i n sX sY) →
      ∃ c ∈ cs, ∃ idx : Nat, p ∈ nodesOf (layoutTree c 0 y level idx n sX sY) := by
  intro cs
  induction cs with
  | nil => intro y level i n p hp; simp [layoutChildren, nodesOfList] at hp
  | cons c rest ih =>
    intro y level i n p hp
    simp only [layoutChildren, nodesOfList, List.mem_append] at hp
    rcases hp with hp | hp
    · exact ⟨c, List.mem_cons_self c rest, i, hp⟩
    · obtain ⟨d, hd, idx, hmem⟩ := ih y level (i + 1) n p hp
      exact ⟨d, List.mem_cons_of_mem c hd, idx, hmem⟩

/-- C3: widths in the output of layoutTree: a childless node has
width spacingX; a node with children has width
max(sum of child widths + spacingX/2 * (count - 1), spacingX); hence
every width is at least spacingX and an internal node is at least as
wide as the sum of its children's widths. -/
theorem layoutTree_width_spec (sX sY : ℚ) (hsX : 0 < sX) :
    ∀ (node : FamilyMember) (x y : ℚ) (level siblingIndex siblingsCount : Nat),
      ∀ p ∈ nodesOf (layoutTree node x y level siblingIndex siblingsCount sX sY),
        (p.children = [] → p.width = sX) ∧
        (p.children ≠ [] →
          p.width = max ((p.children.map fun c => c.width).sum +
            sX * (1 / 2) * ((p.children.length : ℚ) - 1)) sX ∧
          (p.children.map fun c => c.width).sum ≤ p.width) ∧
        sX ≤ p.width := by
  intro node
  induction node using familyMemberInduction with
  | step i n cs IH =>
    intro x y level siblingIndex siblingsCount p hp
    match cs, IH with
    | [], _ =>
      simp only [layoutTree, nodesOf, nodesOfList, List.mem_cons, List.not_mem_nil,
        or_false] at hp
      subst hp
      exact ⟨fun _ => rfl, fun h => absurd rfl h, le_refl sX⟩
    | c :: rest, IH =>
      simp only [layoutTree, nodesOf, List.mem_cons] at hp
      rcases hp with hp | hp
      · subst hp
        simp only [layoutChildren]
        constructor
        · intro h
          exact absurd h (by simp [placeChildren])
        constructor
        · intro _
          constructor
          · simp only [placeChildren_map_width, placeChildren_length]
          · rw [placeChildren_map_width]
            have hk : 1 ≤ (layoutTree c 0 (y + sY) (level + 1) 0 (c :: rest).length sX sY ::
                layoutChildren rest (y + sY) (level + 1) 1 (c :: rest).length sX sY).length := by
              simp
            have hpad : 0 ≤ sX * (1 / 2) *
                (((layoutTree c 0 (y + sY) (level + 1) 0 (c :: rest).length sX sY ::
                  layoutChildren rest (y + sY) (level + 1) 1 (c :: rest).length sX sY).length : ℚ)
                  - 1) := by
              apply mul_nonneg (mul_nonneg hsX.le (by norm_num))
              rw [sub_nonneg]
              exact_mod_cast hk
            exact le_trans (le_add_of_nonneg_right hpad) (le_max_left _ _)
        · exact le_max_right _ _
      · obtain ⟨q, hq, _, _, _, hw, hch⟩ := mem_nodesOfList_placeChildren sX _ _ p hp
        obtain ⟨c', hc', idx, hmem⟩ := mem_nodesOfList_layoutChildren sX sY _ _ _ _ _ q hq
        have hspec := IH c' hc' 0 (y + sY) (level + 1) idx (c :: rest).length q hmem
        rw [hw, hch]
        exact hspec

theorem self_mem_nodesOf (t : PositionedNode) : t ∈ nodesOf t := by
  obtain ⟨i, n, x, y, w, cs⟩ := t
  simp [nodesOf]

/-- Witness for C3: the width specification instantiated on the root
of the laid-out two-children demo tree with positive spacing 180. -/
theorem layoutTree_width_spec_witness :
    (0 : ℚ) < 180 ∧
    ((layoutTree demoTwo 0 80 0 0 1 180 160).children = [] →
      (layoutTree demoTwo 0 80 0 0 1 180 160).width = 180) ∧
    ((layoutTree demoTwo 0 80 0 0 1 180 160).children ≠ [] →
      (layoutTree demoTwo 0 80 0 0 1 180 160).width =
        max (((layoutTree demoTwo 0 80 0 0 1 180 160).children.map fun c => c.width).sum +
          180 * (1 / 2) * (((layoutTree demoTwo 0 80 0 0 1 180 160).children.length : ℚ) - 1))
          180 ∧
      ((layoutTree demoTwo 0 80 0 0 1 180 160).children.map fun c => c.width).sum ≤
        (layoutTree demoTwo 0 80 0 0 1 180 160).width) ∧
    (180 : ℚ) ≤ (layoutTree demoTwo 0 80 0 0 1 180 160).width :=
  ⟨by norm_num,
   layoutTree_width_spec 180 160 (by norm_num) demoTwo 0 80 0 0 1
     (layoutTree demoTwo 0 80 0 0 1 180 160) (self_mem_nodesOf _)⟩

theorem placeChildren_chain (sX : ℚ) (hsX : 0 < sX) :
    ∀ (l : List PositionedNode) (cur : ℚ),
      List.Chain'
        (fun a b => a.x + a.width / 2 < b.x - b.width / 2 ∧
          a.x + a.width / 2 + sX / 2 ≤ b.x - b.width / 2 + sX / 2)
        (placeChildren sX cur l) := by
  intro l
  induction l with
  | nil => intro cur; simp [placeChildren]
  | cons c rest ih =>
    intro cur
    match rest, ih with
    | [], _ => simp [placeChildren]
    | d :: rest2, ih =>
      have hch := ih (cur + c.width + sX * (1 / 2))
      simp only [placeChildren] at hch ⊢
      refine List.Chain'.cons ?_ hch
      obtain ⟨ci, cn, cx, cy, cw, ccs⟩ := c
      obtain ⟨di, dn, dx, dy, dw, dcs⟩ := d
      simp only
      constructor
      · linarith
      · linarith

/-- C1: in the output of layoutTree with positive spacing, at every
node the packed x-ranges of consecutive sibling children, each child x
plus or minus half its width, are disjoint, and consecutive siblings
satisfy the spec inequality with the half-spacing slack on both
sides. -/
theorem layoutTree_no_overlap (sX sY : ℚ) (hsX : 0 < sX) (hsY : 0 < sY) :
    ∀ (node : FamilyMember) (x y : ℚ) (level siblingIndex siblingsCount : Nat),
      ∀ p ∈ nodesOf (layoutTree node x y level siblingIndex siblingsCount sX sY),
        List.Chain'
          (fun a b => a.x + a.width / 2 < b.x - b.width / 2 ∧
            a.x + a.width / 2 + sX / 2 ≤ b.x - b.width / 2 + sX / 2)
          p.children := by
  intro node
  induction node using familyMemberInduction with
  | step i n cs IH =>
    intro x y level siblingIndex siblingsCount p hp
    match cs, IH with
    | [], _ =>
      simp only [layoutTree, nodesOf, nodesOfList, List.mem_cons, List.not_mem_nil,
        or_false] at hp
      subst hp
      simp
    | c :: rest, IH =>
      simp only [layoutTree, nodesOf, List.mem_cons] at hp
      rcases hp with hp | hp
      · subst hp
        exact placeChildren_chain sX hsX _ _
      · obtain ⟨q, hq, _, _, _, _, hch⟩ := mem_nodesOfList_placeChildren sX _ _ p hp
        obtain ⟨c', hc', idx, hmem⟩ := mem_nodesOfList_layoutChildren sX sY _ _ _ _ _ q hq
        have hspec := IH c' hc' 0 (y + sY) (level + 1) idx (c :: rest).length q hmem
        rw [hch]
        exact hspec

/-- Witness for C1: the no-overlap property instantiated on the root
of the laid-out two-children demo tree with spacing 180 and 160. -/
theorem layoutTree_no_overlap_witness :
    (0 : ℚ) < 180 ∧ (0 : ℚ) < 160 ∧
    List.Chain'
      (fun a b => a.x + a.width / 2 < b.x - b.width / 2 ∧
        a.x + a.width / 2 + 180 / 2 ≤ b.x - b.width / 2 + 180 / 2)
      (layoutTree demoTwo 0 80 0 0 1 180 160).children :=
  ⟨by norm_num, by norm_num,
   layoutTree_no_overlap 180 160 (by norm_num) (by norm_num) demoTwo 0 80 0 0 1
     (layoutTree demoTwo 0 80 0 0 1 180 160) (self_mem_nodesOf _)⟩

theorem mem_nodesDepthList_placeChildren (sX : ℚ) :
    ∀ (l : List PositionedNode) (cur : ℚ) (d : Nat) (pd : PositionedNode × Nat),
      pd ∈ nodesDepthList (placeChildren sX cur l) d →
      ∃ q : PositionedNode, (q, pd.2) ∈ nodesDepthList l d ∧ pd.1.y = q.y := by
  intro l
  induction l with
  | nil => intro cur d pd hpd; simp [placeChildren, nodesDepthList] at hpd
  | cons c rest ih =>
    intro cur d pd hpd
    obtain ⟨ci, cn, cx, cy, cw, ccs⟩ := c
    simp only [placeChildren, nodesDepthList, nodesDepth, List.mem_append,
      List.mem_cons] at hpd
    rcases hpd with (hpd | hpd) | hpd
    · refine ⟨⟨ci, cn, cx, cy, cw, ccs⟩, ?_, ?_⟩
      · have h2 : pd.2 = d := by rw [hpd]
        rw [h2]
        simp [nodesDepthList, nodesDepth]
      · rw [hpd]
    · refine ⟨pd.1, ?_, rfl⟩
      simp only [nodesDepthList, nodesDepth, List.mem_append, List.mem_cons]
      exact Or.inl (Or.inr hpd)
    · obtain ⟨q, hq, hy⟩ := ih _ d pd hpd
      refine ⟨q, ?_, hy⟩
      simp only [nodesDepthList, List.mem_append]
      exact Or.inr hq

theorem mem_nodesDepthList_layoutChildren (sX sY : ℚ) :
    ∀ (cs : List FamilyMember) (y : ℚ) (level i n : Nat) (d : Nat) (pd : PositionedNode × Nat),
      pd ∈ nodesDepthList (layoutChildren cs y level i n sX sY) d →
      ∃ c ∈ cs, ∃ idx : Nat, pd ∈ nodesDepth (layoutTree c 0 y level idx n sX sY) d := by
  intro cs
  induction cs with
  | nil => intro y level i n d pd hpd; simp [layoutChildren, nodesDepthList] at hpd
  | cons c rest ih =>
    intro y level i n d pd hpd
    simp only [layoutChildren, nodesDepthList, List.mem_append] at hpd
    rcases hpd with hpd | hpd
    · exact ⟨c, List.mem_cons_self c rest, i, hpd⟩
    · obtain ⟨d', hd', idx, hmem⟩ := ih y level (i + 1) n d pd hpd
      exact ⟨d', List.mem_cons_of_mem c hd', idx, hmem⟩

theorem layoutTree_y_aux (sX sY : ℚ) :
    ∀ (node : FamilyMember) (x y : ℚ) (level siblingIndex siblingsCount d0 : Nat),
      ∀ pd ∈ nodesDepth (layoutTree node x y level siblingIndex siblingsCount sX sY) d0,
        pd.1.y = y + ((pd.2 : ℚ) - (d0 : ℚ)) * sY := by
  intro node
  induction node using familyMemberInduction with
  | step i n cs IH =>
    intro x y level siblingIndex siblingsCount d0 pd hpd
    match cs, IH with
    | [], _ =>
      simp only [layoutTree, nodesDepth, nodesDepthList, List.mem_cons, List.not_mem_nil,
        or_false] at hpd
      subst hpd
      simp
    | c :: rest, IH =>
      simp only [layoutTree, nodesDepth, List.mem_cons] at hpd
      rcases hpd with hpd | hpd
      · subst hpd
        simp
      · obtain ⟨q, hq, hy⟩ := mem_nodesDepthList_placeChildren sX _ _ _ pd hpd
        obtain ⟨c', hc', idx, hmem⟩ :=
          mem_nodesDepthList_layoutChildren sX sY _ _ _ _ _ _ (q, pd.2) hq
        have hspec := IH c' hc' 0 (y + sY) (level + 1) idx (c :: rest).length (d0 + 1)
          (q, pd.2) hmem
        simp only at hspec
        rw [hy, hspec]
        push_cast
        ring

/-- C7: every node at depth d in the output of layoutTree, the root
being at depth 0, has y equal to the root y plus d times the vertical
spacing. -/
theorem layoutTree_depth_y (sX sY : ℚ) :
    ∀ (node : FamilyMember) (x y : ℚ) (level siblingIndex siblingsCount : Nat),
      ∀ pd ∈ nodesDepth (layoutTree node x y level siblingIndex siblingsCount sX sY) 0,
        pd.1.y = y + (pd.2 : ℚ) * sY := by
  intro node x y level siblingIndex siblingsCount pd hpd
  have h := layoutTree_y_aux sX sY node x y level siblingIndex siblingsCount 0 pd hpd
  simpa using h

theorem self_mem_nodesDepth (t : PositionedNode) (d : Nat) : (t, d) ∈ nodesDepth t d := by
  obtain ⟨i, n, x, y, w, cs⟩ := t
  simp [nodesDepth]

/-- Witness for C7: the depth property applied to the root of the
laid-out two-children demo tree, which sits at depth 0 with y 80. -/
theorem layoutTree_depth_y_witness :
    (layoutTree demoTwo 0 80 0 0 1 180 160).y = 80 + ((0 : Nat) : ℚ) * 160 :=
  layoutTree_depth_y 180 160 demoTwo 0 80 0 0 1
    (layoutTree demoTwo 0 80 0 0 1 180 160, 0) (self_mem_nodesDepth _ 0)

theorem layoutTree_demoDeep :
    layoutTree demoDeep 0 80 0 0 1 180 160 =
      ⟨"r", "Root", 0, 80, 450,
        [⟨"a", "A", -135, 240, 180, []⟩,
         ⟨"b", "B", 135, 240, 180, [⟨"c", "C", 0, 400, 180, []⟩]⟩]⟩ := by
  simp [demoDeep, layoutTree, layoutChildren, placeChildren]
  norm_num

/-- C2 fails on the code: in the layout of the depth-three demo tree
the node with id b ends up at x 135 while its only child stays at x 0,
because the packing loop of the parent overwrites only the x of the
child-subtree root and never shifts the subtree below it.  So there is
a node in the output whose x differs from the average of its first and
last child's x. -/
theorem layoutTree_centering_violation :
    ∃ p ∈ nodesOf (layoutTree demoDeep 0 80 0 0 1 180 160),
      ∃ c0 : PositionedNode, p.children = [c0] ∧ p.x ≠ (c0.x + c0.x) / 2 := by
  refine ⟨⟨"b", "B", 135, 240, 180, [⟨"c", "C", 0, 400, 180, []⟩]⟩, ?_,
    ⟨"c", "C", 0, 400, 180, []⟩, rfl, by norm_num⟩
  rw [layoutTree_demoDeep]
  simp [nodesOf, nodesOfList]

theorem list_minimum_append {α : Type} [LinearOrder α] (l₁ l₂ : List α) :
    (l₁ ++ l₂).minimum = min l₁.minimum l₂.minimum := by
  induction l₁ with
  | nil => simp [List.minimum_nil, min_eq_right le_top]
  | cons a t ih => simp [List.minimum_cons, ih, min_assoc]

theorem list_maximum_append {α : Type} [LinearOrder α] (l₁ l₂ : List α) :
    (l₁ ++ l₂).maximum = max l₁.maximum l₂.maximum := by
  induction l₁ with
  | nil => simp [List.maximum_nil, max_eq_right bot_le]
  | cons a t ih => simp [List.maximum_cons, ih, max_assoc]

/-- Pointwise combination of a running accumulator with the bounds of
a block of nodes. -/
def combineBounds (b nb : TreeBounds) : TreeBounds :=
  ⟨min b.minX nb.minX, max b.maxX nb.maxX, min b.minY nb.minY, max b.maxY nb.maxY⟩

theorem getTreeBoundsList_combine (cs : List PositionedNode)
    (hcs : ∀ c ∈ cs, ∀ b, getTreeBounds c b = combineBounds b (boundsOfNodes (nodesOf c))) :
    ∀ b, getTreeBoundsList cs b = combineBounds b (boundsOfNodes (nodesOfList cs)) := by
  induction cs with
  | nil =>
    intro b
    obtain ⟨b1, b2, b3, b4⟩ := b
    simp [getTreeBoundsList, nodesOfList, boundsOfNodes, combineBounds,
      List.minimum_nil, List.maximum_nil, min_eq_left le_top, max_eq_left bot_le]
  | cons c rest ih =>
    intro b
    simp only [getTreeBoundsList]
    rw [hcs c (List.mem_cons_self c rest),
      ih (fun d hd => hcs d (List.mem_cons_of_mem c hd))]
    obtain ⟨b1, b2, b3, b4⟩ := b
    simp [combineBounds, boundsOfNodes, nodesOfList, List.map_append,
      list_minimum_append, list_maximum_append, min_assoc, max_assoc]

theorem getTreeBounds_combine :
    ∀ (t : PositionedNode) (b : TreeBounds),
      getTreeBounds t b = combineBounds b (boundsOfNodes (nodesOf t)) := by
  intro t
  induction t using positionedNodeInduction with
  | step i n x y w cs IH =>
    intro b
    simp only [getTreeBounds]
    rw [getTreeBoundsList_combine cs IH]
    obtain ⟨b1, b2, b3, b4⟩ := b
    simp [combineBounds, boundsOfNodes, nodesOf, List.minimum_cons, List.maximum_cons,
      min_assoc, max_assoc]

theorem nodesOf_ne_nil (t : PositionedNode) : nodesOf t ≠ [] := by
  obtain ⟨i, n, x, y, w, cs⟩ := t
  simp [nodesOf]

theorem layoutTree_demoTwo_eval :
    layoutTree demoTwo 0 80 0 0 1 180 160 =
      ⟨"r", "Root", 0, 80, 450,
        [⟨"a", "A", -135, 240, 180, []⟩, ⟨"b", "B", 135, 240, 180, []⟩]⟩ := by
  simp [demoTwo, layoutTree, layoutChildren, placeChildren]
  norm_num

/-- C5: started from the Infinity-seeded accumulator, getTreeBounds
returns exactly the minimum of x, the maximum of x + 100, the minimum
of y and the maximum of y + 80 over all nodes of the tree, a finite
box independent of traversal order; on the two-children layout it
returns minX -135, maxX 235, minY 80, maxY 320. -/
theorem getTreeBounds_spec :
    (∀ t : PositionedNode,
      getTreeBounds t initialBounds = boundsOfNodes (nodesOf t) ∧
      (getTreeBounds t initialBounds).minX ≠ ⊤ ∧
      (getTreeBounds t initialBounds).maxX ≠ ⊥ ∧
      (getTreeBounds t initialBounds).minY ≠ ⊤ ∧
      (getTreeBounds t initialBounds).maxY ≠ ⊥) ∧
    getTreeBounds (layoutTree demoTwo 0 80 0 0 1 180 160) initialBounds =
      ⟨((-135 : ℚ) : WithTop ℚ), ((235 : ℚ) : WithBot ℚ),
       ((80 : ℚ) : WithTop ℚ), ((320 : ℚ) : WithBot ℚ)⟩ := by
  have hmain : ∀ t : PositionedNode,
      getTreeBounds t initialBounds = boundsOfNodes (nodesOf t) := by
    intro t
    rw [getTreeBounds_combine]
    simp [combineBounds, initialBounds, min_eq_right le_top, max_eq_right bot_le]
  constructor
  · intro t
    refine ⟨hmain t, ?_, ?_, ?_, ?_⟩ <;>
      rw [hmain t] <;>
      simp [boundsOfNodes, List.minimum_eq_top, List.maximum_eq_bot, nodesOf_ne_nil t]
  · rw [hmain, layoutTree_demoTwo_eval]
    simp only [boundsOfNodes, nodesOf, nodesOfList, List.cons_append, List.nil_append,
      List.append_nil, List.map_cons, List.map_nil]
    norm_num
    decide
